import Mathlib

/-!
Verification of the MiningChallenge contract (src/contracts/src/MiningChallenge.sol).

The encrypted-value backend (FHEVM) is shallowly embedded: a ciphertext handle
is an index into a growing store of cleartext values; each homomorphic
operation allocates a fresh handle holding the cleartext result (euint32
arithmetic is `% 2^32`), records its operand handles together with the set of
handles that were self-granted (`FHE.allowThis`) at that moment, and the ACL
is a pair of append-only grant lists (`allowThis` / `allow`).

Handle 0 is the all-zero sentinel of an uninitialized `euint32` slot; the
initial store is `[0]` so the sentinel always decrypts to 0.
-/

set_option maxHeartbeats 1000000

abbrev Addr := Nat

abbrev Handle := Nat

/-- One recorded homomorphic operation: its operand handles and the list of
handles that were self-granted at the moment the operation ran. -/
structure OpRecord where
  operands : List Handle
  grantedThen : List Handle
deriving DecidableEq

/-- State of the embedded FHE backend: cleartext store (index = handle),
self-grants (`FHE.allowThis`), user grants (`FHE.allow`), and the log of
homomorphic operations performed. -/
structure FheState where
  vals : List Nat
  selfGranted : List Handle
  userGranted : List (Handle × Addr)
  opsLog : List OpRecord

/-- Cleartext value of a handle (0 for the sentinel and out-of-range handles). -/
def FheState.val (f : FheState) (h : Handle) : Nat := f.vals.getD h 0

/-- Allocate a fresh handle holding cleartext `v`. -/
def FheState.alloc (f : FheState) (v : Nat) : Handle × FheState :=
  (f.vals.length, { f with vals := f.vals ++ [v] })

/-- Record a homomorphic operation together with the self-grants current at
the time it executes. -/
def FheState.logOp (f : FheState) (ops : List Handle) : FheState :=
  { f with opsLog := f.opsLog ++ [{ operands := ops, grantedThen := f.selfGranted }] }

/-- `FHE.asEuint32`: trivial encryption of a constant. -/
def FheState.asEuint32 (f : FheState) (n : Nat) : Handle × FheState :=
  f.alloc (n % 2 ^ 32)

/-- `FHE.fromExternal`: import a (proof-checked) external ciphertext. -/
def FheState.fromExternal (f : FheState) (n : Nat) : Handle × FheState :=
  f.alloc (n % 2 ^ 32)

/-- `FHE.add` on euint32: cleartext semantics `(a + b) % 2^32`. -/
def FheState.fheAdd (f : FheState) (a b : Handle) : Handle × FheState :=
  (f.logOp [a, b]).alloc ((f.val a + f.val b) % 2 ^ 32)

/-- `FHE.gt a b`: encrypted boolean with cleartext semantics `a > b`. -/
def FheState.fheGt (f : FheState) (a b : Handle) : Handle × FheState :=
  (f.logOp [a, b]).alloc (if f.val b < f.val a then 1 else 0)

/-- `FHE.select c a b`: cleartext semantics `if c then a else b`. -/
def FheState.fheSelect (f : FheState) (c a b : Handle) : Handle × FheState :=
  (f.logOp [c, a, b]).alloc (if f.val c = 0 then f.val b else f.val a)

/-- `FHE.allowThis`: self-grant a handle to the contract. -/
def FheState.allowThis (f : FheState) (h : Handle) : FheState :=
  { f with selfGranted := f.selfGranted ++ [h] }

/-- `FHE.allow`: grant a principal the right to decrypt a handle. -/
def FheState.allow (f : FheState) (h : Handle) (p : Addr) : FheState :=
  { f with userGranted := f.userGranted ++ [(h, p)] }

/-- `struct PlayerData` of the contract (`exists` is `existsFlag` here). -/
structure PlayerData where
  totalMined : Handle
  existsFlag : Bool
  lastMineTime : Nat

/-- Errors raised by the contract's `require` statements. -/
inductive MCError where
  | rateLimited
  | notFound
  | indexOutOfBounds
deriving DecidableEq

/-- Full contract state: FHE backend state plus the storage variables of
`MiningChallenge`. -/
structure ContractState where
  fhe : FheState
  players : Addr → PlayerData
  playerAddresses : List Addr
  rewardToken : Addr
  minMineInterval : Nat
  totalMinedAmount : Handle

/-- The constructor: stores parameters and sets `totalMinedAmount = FHE.asEuint32(0)`.
The mapping default gives every player the sentinel handle 0, `exists = false`,
`lastMineTime = 0`. -/
def initState (rt : Addr) (mi : Nat) : ContractState :=
  let z := (FheState.mk [0] [] [] []).asEuint32 0
  { fhe := z.2
    players := fun _ => { totalMined := 0, existsFlag := false, lastMineTime := 0 }
    playerAddresses := []
    rewardToken := rt
    minMineInterval := mi
    totalMinedAmount := z.1 }

/-- Lines 67-71 of `mine`: lazily create the player record and register the
address on a first contribution. -/
def registerIfNeeded (s : ContractState) (sender : Addr) : ContractState :=
  if (s.players sender).existsFlag = true then s
  else
    let z := s.fhe.asEuint32 0
    { s with
      fhe := z.2
      players := fun a =>
        if a = sender then
          { totalMined := z.1, existsFlag := true, lastMineTime := (s.players a).lastMineTime }
        else s.players a
      playerAddresses := s.playerAddresses ++ [sender] }

/-- Lines 66-89 of `mine`: the state mutation after the rate-limit check, given
the already-imported amount handle. -/
def mineBody (s : ContractState) (sender : Addr) (amountH : Handle) (now : Nat) : ContractState :=
  let s1 := registerIfNeeded s sender
  let t := s1.fhe.fheAdd (s1.players sender).totalMined amountH
  let s2 : ContractState :=
    { s1 with
      fhe := t.2
      players := fun a =>
        if a = sender then
          { totalMined := t.1, existsFlag := (s1.players a).existsFlag
            lastMineTime := (s1.players a).lastMineTime }
        else s1.players a }
  let u := s2.fhe.fheAdd s2.totalMinedAmount amountH
  let s3 : ContractState := { s2 with fhe := u.2.allowThis u.1, totalMinedAmount := u.1 }
  let s4 : ContractState :=
    { s3 with
      players := fun a =>
        if a = sender then
          { totalMined := (s3.players a).totalMined, existsFlag := (s3.players a).existsFlag
            lastMineTime := now }
        else s3.players a }
  let f := (s4.fhe.allowThis (s4.players sender).totalMined).allow
    ((s4.players sender).totalMined) sender
  { s4 with fhe := f }

/-- `mine(encryptedAmount, inputProof)`: import the amount, self-grant it,
check the rate limit, then run the body.  A failed `require` reverts, i.e.
no state is returned. -/
def mine (s : ContractState) (sender : Addr) (amount now : Nat) : Except MCError ContractState :=
  let p := s.fhe.fromExternal amount
  let f2 := p.2.allowThis p.1
  if (s.players sender).existsFlag = true ∧
      now < (s.players sender).lastMineTime + s.minMineInterval then
    Except.error MCError.rateLimited
  else
    Except.ok (mineBody { s with fhe := f2 } sender p.1 now)

/-- `getPlayerTotalMined(player)`. -/
def getPlayerTotalMined (s : ContractState) (p : Addr) : Except MCError Handle :=
  if (s.players p).existsFlag = true then Except.ok (s.players p).totalMined
  else Except.error MCError.notFound

/-- `getTotalMinedAmount()`. -/
def getTotalMinedAmount (s : ContractState) : Handle := s.totalMinedAmount

/-- `getPlayerCount()`. -/
def getPlayerCount (s : ContractState) : Nat := s.playerAddresses.length

/-- `getPlayerAddress(index)`. -/
def getPlayerAddress (s : ContractState) (i : Nat) : Except MCError Addr :=
  if h : i < s.playerAddresses.length then Except.ok (s.playerAddresses.get ⟨i, h⟩)
  else Except.error MCError.indexOutOfBounds

/-- `playerExists(player)`. -/
def playerExists (s : ContractState) (p : Addr) : Bool := (s.players p).existsFlag

/-- `getPlayerLastMineTime(player)`. -/
def getPlayerLastMineTime (s : ContractState) (p : Addr) : Except MCError Nat :=
  if (s.players p).existsFlag = true then Except.ok (s.players p).lastMineTime
  else Except.error MCError.notFound

/-- One iteration of the `calculateMyRank` loop body (lines 138-144):
`isGreater := gt(other, mine)`, `increment := select(isGreater, 1, 0)`,
`count := add(count, increment)`. -/
def rankStepState (players : Addr → PlayerData) (other : Addr) (myAmount count : Handle)
    (f : FheState) : Handle × FheState :=
  let g := f.fheGt (players other).totalMined myAmount
  let o1 := g.2.asEuint32 1
  let o0 := o1.2.asEuint32 0
  let inc := o0.2.fheSelect g.1 o1.1 o0.1
  inc.2.fheAdd count inc.1

/-- The loop of `calculateMyRank` (lines 135-146): fold over the registered
addresses, homomorphically counting strictly greater totals. -/
def rankLoop (players : Addr → PlayerData) (sender : Addr) (myAmount : Handle) :
    List Addr → Handle → FheState → Handle × FheState
  | [], count, f => (count, f)
  | other :: rest, count, f =>
    if other = sender then rankLoop players sender myAmount rest count f
    else
      let c := rankStepState players other myAmount count f
      rankLoop players sender myAmount rest c.1 c.2

/-- `calculateMyRank()`: count players with strictly greater totals, add one,
grant the result to the caller. -/
def calculateMyRank (s : ContractState) (sender : Addr) :
    Except MCError (Handle × ContractState) :=
  if (s.players sender).existsFlag = true then
    let myAmount := (s.players sender).totalMined
    let z := s.fhe.asEuint32 0
    let r := rankLoop s.players sender myAmount s.playerAddresses z.1 z.2
    let o := r.2.asEuint32 1
    let rk := o.2.fheAdd r.1 o.1
    let f := (rk.2.allowThis rk.1).allow rk.1 sender
    Except.ok (rk.1, { s with fhe := f })
  else Except.error MCError.notFound

/-- A transition of the ledger: a `mine` call or a `calculateMyRank` call. -/
inductive Op where
  | mineOp (sender amount now : Nat)
  | rankOp (sender : Nat)

/-- Apply one transition; a reverted call leaves the state unchanged. -/
def applyOp (s : ContractState) : Op → ContractState
  | Op.mineOp sender amount now =>
    match mine s sender amount now with
    | Except.ok s' => s'
    | Except.error _ => s
  | Op.rankOp sender =>
    match calculateMyRank s sender with
    | Except.ok r => r.2
    | Except.error _ => s

/-- Run a sequence of transitions. -/
def runTrace (s : ContractState) : List Op → ContractState
  | [] => s
  | op :: tr => runTrace (applyOp s op) tr

/-- Sum of the cleartext amounts of the successful `mine` calls of a trace. -/
def succSum (s : ContractState) : List Op → Nat
  | [] => 0
  | Op.mineOp sender amount now :: tr =>
    match mine s sender amount now with
    | Except.ok s' => amount % 2 ^ 32 + succSum s' tr
    | Except.error _ => succSum s tr
  | Op.rankOp sender :: tr => succSum (applyOp s (Op.rankOp sender)) tr

/-- Senders of the successful `mine` calls of a trace, in order. -/
def succSenders (s : ContractState) : List Op → List Addr
  | [] => []
  | Op.mineOp sender amount now :: tr =>
    match mine s sender amount now with
    | Except.ok s' => sender :: succSenders s' tr
    | Except.error _ => succSenders s tr
  | Op.rankOp sender :: tr => succSenders (applyOp s (Op.rankOp sender)) tr

/-- One step of first-occurrence collection: append an address unless present. -/
def regStep (acc : List Addr) (a : Addr) : List Addr :=
  if a ∈ acc then acc else acc ++ [a]

/-- Keep the first occurrence of each element, in order. -/
def firstOccur (l : List Addr) : List Addr :=
  l.foldl (fun acc a => if a ∈ acc then acc else acc ++ [a]) []

/-- Cleartext of a player's stored total. -/
def clearTotal (s : ContractState) (p : Addr) : Nat := s.fhe.val (s.players p).totalMined

/-- Cleartext of the global aggregate. -/
def clearAggregate (s : ContractState) : Nat := s.fhe.val s.totalMinedAmount

/-- Sum of the cleartexts of all registered players' totals. -/
def playersClearSum (s : ContractState) : Nat :=
  (s.playerAddresses.map (fun p => s.fhe.val (s.players p).totalMined)).sum

/-- Whether a `mine` call succeeds. -/
def mineOk (s : ContractState) (sender amount now : Nat) : Bool :=
  match mine s sender amount now with
  | Except.ok _ => true
  | Except.error _ => false

/-- The handle returned by a successful `calculateMyRank` (0 if it reverts). -/
def rankHandle (s : ContractState) (sender : Addr) : Handle :=
  match calculateMyRank s sender with
  | Except.ok r => r.1
  | Except.error _ => 0

/-- The post-state of a `calculateMyRank` call (unchanged if it reverts). -/
def rankState (s : ContractState) (sender : Addr) : ContractState :=
  match calculateMyRank s sender with
  | Except.ok r => r.2
  | Except.error _ => s

/-- Cleartext of the rank returned by `calculateMyRank`. -/
def rankClear (s : ContractState) (sender : Addr) : Except MCError Nat :=
  match calculateMyRank s sender with
  | Except.ok r => Except.ok (r.2.fhe.val r.1)
  | Except.error e => Except.error e

/-- The discipline claimed by the spec: every operand of every homomorphic
operation was self-granted at the time the operation ran. -/
def selfGrantDiscipline (f : FheState) : Prop :=
  ∀ r ∈ f.opsLog, ∀ h ∈ r.operands, h ∈ r.grantedThen

instance (f : FheState) : Decidable (selfGrantDiscipline f) := by
  unfold selfGrantDiscipline; infer_instance

/-- The reachability invariant of the ledger: the registry mirrors the exists
flags without duplicates, unregistered records hold the zero sentinel, all
stored handles are live, all stored cleartexts are 32-bit, and the aggregate's
cleartext equals the players' sum mod 2^32. -/
structure LedgerInv (s : ContractState) : Prop where
  nodup : s.playerAddresses.Nodup
  regIff : ∀ p, p ∈ s.playerAddresses ↔ (s.players p).existsFlag = true
  nullZero : s.fhe.val 0 = 0
  noRecZero : ∀ p, (s.players p).existsFlag = false → (s.players p).totalMined = 0
  totalValid : s.totalMinedAmount < s.fhe.vals.length
  playerValid : ∀ p, (s.players p).existsFlag = true →
    (s.players p).totalMined < s.fhe.vals.length
  valsBound : ∀ v ∈ s.fhe.vals, v < 2 ^ 32
  sumEq : s.fhe.val s.totalMinedAmount = playersClearSum s % 2 ^ 32

/-! ### Basic facts about the embedded FHE operations -/

@[simp] theorem fromExternal_fst (f : FheState) (n : Nat) :
    (f.fromExternal n).1 = f.vals.length := rfl

@[simp] theorem fromExternal_vals (f : FheState) (n : Nat) :
    (f.fromExternal n).2.vals = f.vals ++ [n % 2 ^ 32] := rfl

@[simp] theorem fromExternal_self (f : FheState) (n : Nat) :
    (f.fromExternal n).2.selfGranted = f.selfGranted := rfl

@[simp] theorem fromExternal_user (f : FheState) (n : Nat) :
    (f.fromExternal n).2.userGranted = f.userGranted := rfl

@[simp] theorem fromExternal_log (f : FheState) (n : Nat) :
    (f.fromExternal n).2.opsLog = f.opsLog := rfl

@[simp] theorem asEuint32_fst (f : FheState) (n : Nat) :
    (f.asEuint32 n).1 = f.vals.length := rfl

@[simp] theorem asEuint32_vals (f : FheState) (n : Nat) :
    (f.asEuint32 n).2.vals = f.vals ++ [n % 2 ^ 32] := rfl

@[simp] theorem asEuint32_self (f : FheState) (n : Nat) :
    (f.asEuint32 n).2.selfGranted = f.selfGranted := rfl

@[simp] theorem asEuint32_user (f : FheState) (n : Nat) :
    (f.asEuint32 n).2.userGranted = f.userGranted := rfl

@[simp] theorem asEuint32_log (f : FheState) (n : Nat) :
    (f.asEuint32 n).2.opsLog = f.opsLog := rfl

@[simp] theorem fheAdd_fst (f : FheState) (a b : Handle) :
    (f.fheAdd a b).1 = f.vals.length := rfl

@[simp] theorem fheAdd_vals (f : FheState) (a b : Handle) :
    (f.fheAdd a b).2.vals = f.vals ++ [(f.val a + f.val b) % 2 ^ 32] := rfl

@[simp] theorem fheAdd_self (f : FheState) (a b : Handle) :
    (f.fheAdd a b).2.selfGranted = f.selfGranted := rfl

@[simp] theorem fheAdd_user (f : FheState) (a b : Handle) :
    (f.fheAdd a b).2.userGranted = f.userGranted := rfl

@[simp] theorem fheAdd_log (f : FheState) (a b : Handle) :
    (f.fheAdd a b).2.opsLog
      = f.opsLog ++ [{ operands := [a, b], grantedThen := f.selfGranted }] := rfl

@[simp] theorem fheGt_fst (f : FheState) (a b : Handle) :
    (f.fheGt a b).1 = f.vals.length := rfl

@[simp] theorem fheGt_vals (f : FheState) (a b : Handle) :
    (f.fheGt a b).2.vals = f.vals ++ [if f.val b < f.val a then 1 else 0] := rfl

@[simp] theorem fheGt_self (f : FheState) (a b : Handle) :
    (f.fheGt a b).2.selfGranted = f.selfGranted := rfl

@[simp] theorem fheGt_user (f : FheState) (a b : Handle) :
    (f.fheGt a b).2.userGranted = f.userGranted := rfl

@[simp] theorem fheSelect_fst (f : FheState) (c a b : Handle) :
    (f.fheSelect c a b).1 = f.vals.length := rfl

@[simp] theorem fheSelect_vals (f : FheState) (c a b : Handle) :
    (f.fheSelect c a b).2.vals
      = f.vals ++ [if f.val c = 0 then f.val b else f.val a] := rfl

@[simp] theorem fheSelect_self (f : FheState) (c a b : Handle) :
    (f.fheSelect c a b).2.selfGranted = f.selfGranted := rfl

@[simp] theorem fheSelect_user (f : FheState) (c a b : Handle) :
    (f.fheSelect c a b).2.userGranted = f.userGranted := rfl

@[simp] theorem allowThis_vals (f : FheState) (h : Handle) :
    (f.allowThis h).vals = f.vals := rfl

@[simp] theorem allowThis_self (f : FheState) (h : Handle) :
    (f.allowThis h).selfGranted = f.selfGranted ++ [h] := rfl

@[simp] theorem allowThis_user (f : FheState) (h : Handle) :
    (f.allowThis h).userGranted = f.userGranted := rfl

@[simp] theorem allowThis_log (f : FheState) (h : Handle) :
    (f.allowThis h).opsLog = f.opsLog := rfl

@[simp] theorem allow_vals (f : FheState) (h : Handle) (p : Addr) :
    (f.allow h p).vals = f.vals := rfl

@[simp] theorem allow_self (f : FheState) (h : Handle) (p : Addr) :
    (f.allow h p).selfGranted = f.selfGranted := rfl

@[simp] theorem allow_user (f : FheState) (h : Handle) (p : Addr) :
    (f.allow h p).userGranted = f.userGranted ++ [(h, p)] := rfl

@[simp] theorem allow_log (f : FheState) (h : Handle) (p : Addr) :
    (f.allow h p).opsLog = f.opsLog := rfl

/-! ### List helpers -/

theorem getD_append_lt (l l' : List Nat) (n : Nat) (h : n < l.length) :
    (l ++ l').getD n 0 = l.getD n 0 := by
  induction l generalizing n with
  | nil => simp at h
  | cons a t ih =>
    cases n with
    | zero => rfl
    | succ m =>
      simp only [List.cons_append, List.getD_cons_succ]
      exact ih m (by simpa using h)

theorem getD_append_add (l l' : List Nat) (k : Nat) :
    (l ++ l').getD (l.length + k) 0 = l'.getD k 0 := by
  induction l with
  | nil => simp
  | cons a t ih =>
    have hidx : (a :: t).length + k = (t.length + k) + 1 := by
      simp only [List.length_cons]; omega
    rw [List.cons_append, hidx, List.getD_cons_succ, ih]

theorem val_of_extend {f g : FheState} (ext : List Nat) (hv : g.vals = f.vals ++ ext)
    {h : Handle} (hh : h < f.vals.length) : g.val h = f.val h := by
  unfold FheState.val
  rw [hv, getD_append_lt _ _ _ hh]

theorem sum_map_swap (l : List Addr) (x : Addr) (f g : Addr → Nat)
    (hnd : l.Nodup) (hx : x ∈ l) (hfg : ∀ a ∈ l, a ≠ x → f a = g a) :
    (l.map f).sum + g x = (l.map g).sum + f x := by
  induction l with
  | nil => simp at hx
  | cons a t ih =>
    rcases List.mem_cons.mp hx with hxa | hxt
    · have hnt : a ∉ t := (List.nodup_cons.mp hnd).1
      have hmap : t.map f = t.map g :=
        List.map_congr_left fun b hb =>
          hfg b (List.mem_cons_of_mem _ hb) (fun hbx => hnt ((hbx.trans hxa) ▸ hb))
      rw [hxa]
      simp only [List.map_cons, List.sum_cons, hmap]
      omega
    · have ha : a ≠ x := fun h => (List.nodup_cons.mp hnd).1 (h ▸ hxt)
      have hfa : f a = g a := hfg a (List.mem_cons_self a t) ha
      have hrec := ih (List.nodup_cons.mp hnd).2 hxt
        (fun b hb hbx => hfg b (List.mem_cons_of_mem _ hb) hbx)
      simp only [List.map_cons, List.sum_cons, hfa]
      omega

theorem firstOccur_eq_foldl (l : List Addr) : firstOccur l = l.foldl regStep [] := rfl

theorem mem_foldl_regStep (l : List Addr) :
    ∀ (acc : List Addr) (x : Addr), x ∈ l.foldl regStep acc ↔ x ∈ acc ∨ x ∈ l := by
  induction l with
  | nil => simp
  | cons a t ih =>
    intro acc x
    simp only [List.foldl_cons]
    rw [ih]
    unfold regStep
    by_cases h : a ∈ acc
    · simp only [h, if_true, List.mem_cons]
      constructor
      · rintro (hx | hx)
        · exact Or.inl hx
        · exact Or.inr (Or.inr hx)
      · rintro (hx | hx | hx)
        · exact Or.inl hx
        · exact Or.inl (hx ▸ h)
        · exact Or.inr hx
    · simp only [h, if_false, List.mem_append, List.mem_cons, List.not_mem_nil, or_false]
      tauto

theorem nodup_foldl_regStep (l : List Addr) :
    ∀ acc : List Addr, acc.Nodup → (l.foldl regStep acc).Nodup := by
  induction l with
  | nil => intro acc h; simpa
  | cons a t ih =>
    intro acc h
    simp only [List.foldl_cons]
    apply ih
    unfold regStep
    by_cases hm : a ∈ acc
    · simpa [hm]
    · simp only [hm, if_false]
      rw [List.nodup_append]
      exact ⟨h, List.nodup_singleton a, by simpa using hm⟩

theorem initState_inv (rt : Addr) (mi : Nat) : LedgerInv (initState rt mi) := by
  constructor <;>
    simp [initState, playersClearSum, FheState.val, FheState.asEuint32, FheState.alloc]

theorem mine_ok_elim {s : ContractState} {sender amount now : Nat} {s' : ContractState}
    (h : mine s sender amount now = Except.ok s') :
    ¬((s.players sender).existsFlag = true ∧
        now < (s.players sender).lastMineTime + s.minMineInterval) ∧
    s' = mineBody
      { s with fhe := (s.fhe.fromExternal amount).2.allowThis (s.fhe.fromExternal amount).1 }
      sender s.fhe.vals.length now := by
  unfold mine at h
  split at h
  · exact absurd h (by simp)
  · next hc =>
    refine ⟨hc, ?_⟩
    exact (Except.ok.inj h).symm

theorem getD_snoc_len (l : List Nat) (v : Nat) : (l ++ [v]).getD l.length 0 = v := by
  simpa using getD_append_add l [v] 0

theorem getD_snoc2 (l : List Nat) (y z : Nat) : (l ++ [y] ++ [z]).getD l.length 0 = y := by
  have h : l.length < (l ++ [y]).length := by simp
  rw [getD_append_lt _ _ _ h, getD_snoc_len]

theorem getD_snoc3 (l : List Nat) (x y z : Nat) :
    (l ++ [x] ++ [y] ++ [z]).getD l.length 0 = x := by
  have h : l.length < (l ++ [x] ++ [y]).length := by simp
  rw [getD_append_lt _ _ _ h, getD_snoc2]

theorem getD_ext1 {l : List Nat} {n : Nat} (h : n < l.length) (x : Nat) :
    (l ++ [x]).getD n 0 = l.getD n 0 :=
  getD_append_lt _ _ _ h

theorem getD_ext2 {l : List Nat} {n : Nat} (h : n < l.length) (x y : Nat) :
    (l ++ [x] ++ [y]).getD n 0 = l.getD n 0 := by
  have h1 : n < (l ++ [x]).length := by simp only [List.length_append]; omega
  rw [getD_append_lt _ _ _ h1, getD_append_lt _ _ _ h]

theorem getD_ext3 {l : List Nat} {n : Nat} (h : n < l.length) (x y z : Nat) :
    (l ++ [x] ++ [y] ++ [z]).getD n 0 = l.getD n 0 := by
  have h1 : n < (l ++ [x] ++ [y]).length := by simp only [List.length_append]; omega
  rw [getD_append_lt _ _ _ h1, getD_ext2 h]

theorem getD_ext4 {l : List Nat} {n : Nat} (h : n < l.length) (w x y z : Nat) :
    (l ++ [w] ++ [x] ++ [y] ++ [z]).getD n 0 = l.getD n 0 := by
  have h1 : n < (l ++ [w] ++ [x] ++ [y]).length := by simp only [List.length_append]; omega
  rw [getD_append_lt _ _ _ h1, getD_ext3 h]

theorem false_eq_true_iff : (false = true) ↔ False := by simp

theorem mine_ok_facts {s : ContractState} {sender amount now : Nat} {s' : ContractState}
    (inv : LedgerInv s) (h : mine s sender amount now = Except.ok s') :
    s'.playerAddresses = (if (s.players sender).existsFlag = true then s.playerAddresses
      else s.playerAddresses ++ [sender]) ∧
    (∀ p, p ≠ sender → s'.players p = s.players p) ∧
    (s'.players sender).existsFlag = true ∧
    (s'.players sender).lastMineTime = now ∧
    (∃ ext, s'.fhe.vals = s.fhe.vals ++ ext) ∧
    (∃ ext, s'.fhe.selfGranted = s.fhe.selfGranted ++ ext) ∧
    (∃ ext, s'.fhe.userGranted = s.fhe.userGranted ++ ext) ∧
    s'.rewardToken = s.rewardToken ∧
    s'.minMineInterval = s.minMineInterval ∧
    s'.fhe.val s'.totalMinedAmount
      = (s.fhe.val s.totalMinedAmount + amount % 2 ^ 32) % 2 ^ 32 ∧
    s'.fhe.val (s'.players sender).totalMined
      = (s.fhe.val (s.players sender).totalMined + amount % 2 ^ 32) % 2 ^ 32 ∧
    (s'.players sender).totalMined ∈ s'.fhe.selfGranted ∧
    ((s'.players sender).totalMined, sender) ∈ s'.fhe.userGranted ∧
    s'.totalMinedAmount ∈ s'.fhe.selfGranted ∧
    s.fhe.vals.length ∈ s'.fhe.selfGranted ∧
    s'.totalMinedAmount < s'.fhe.vals.length ∧
    (s'.players sender).totalMined < s'.fhe.vals.length ∧
    (∀ v ∈ s'.fhe.vals, v < 2 ^ 32) := by
  obtain ⟨hc, hs'⟩ := mine_ok_elim h
  have hm : (0:Nat) < 2 ^ 32 := by norm_num
  cases hexb : (s.players sender).existsFlag with
  | true =>
    have hT : (s.players sender).totalMined < s.fhe.vals.length :=
      inv.playerValid sender hexb
    have hTM : s.totalMinedAmount < s.fhe.vals.length := inv.totalValid
    rw [hs']
    unfold mineBody registerIfNeeded
    simp only [hexb, eq_self_iff_true, if_true, ite_true,
      fheAdd_fst, fheAdd_vals, fheAdd_self, fheAdd_user, fheAdd_log,
      allowThis_vals, allowThis_self, allowThis_user, allowThis_log,
      allow_vals, allow_self, allow_user, allow_log,
      fromExternal_fst, fromExternal_vals, fromExternal_self, fromExternal_user,
      fromExternal_log, asEuint32_fst, asEuint32_vals, asEuint32_self, asEuint32_user,
      asEuint32_log, FheState.val, Nat.zero_mod]
    simp only [getD_snoc_len, getD_snoc2, getD_snoc3,
      getD_ext1 hT, getD_ext2 hT, getD_ext3 hT,
      getD_ext1 hTM, getD_ext2 hTM, getD_ext3 hTM]
    refine ⟨trivial, ?_, trivial, trivial, ?_, ?_, ⟨_, rfl⟩, trivial, trivial,
      trivial, trivial, ?_, ?_, ?_, ?_, ?_, ?_, ?_⟩
    · intro p hp; simp only [if_neg hp]
    · exact ⟨_, by rw [List.append_assoc, List.append_assoc]⟩
    · exact ⟨_, by rw [List.append_assoc, List.append_assoc]⟩
    · simp
    · simp
    · simp
    · simp
    · simp
    · simp
    · intro v hv
      simp only [List.mem_append, List.mem_singleton] at hv
      rcases hv with ((hv | hv) | hv) | hv
      · exact inv.valsBound v hv
      · subst hv; exact Nat.mod_lt _ hm
      · subst hv; exact Nat.mod_lt _ hm
      · subst hv; exact Nat.mod_lt _ hm
  | false =>
    have hTM : s.totalMinedAmount < s.fhe.vals.length := inv.totalValid
    have hzero : (s.players sender).totalMined = 0 := inv.noRecZero sender hexb
    have hz : s.fhe.vals.getD 0 0 = 0 := inv.nullZero
    rw [hs']
    unfold mineBody registerIfNeeded
    simp only [hexb, false_eq_true_iff, if_false, ite_false, eq_self_iff_true, if_true,
      ite_true,
      fheAdd_fst, fheAdd_vals, fheAdd_self, fheAdd_user, fheAdd_log,
      allowThis_vals, allowThis_self, allowThis_user, allowThis_log,
      allow_vals, allow_self, allow_user, allow_log,
      fromExternal_fst, fromExternal_vals, fromExternal_self, fromExternal_user,
      fromExternal_log, asEuint32_fst, asEuint32_vals, asEuint32_self, asEuint32_user,
      asEuint32_log, FheState.val, Nat.zero_mod]
    simp only [getD_snoc_len, getD_snoc2, getD_snoc3,
      getD_ext1 hTM, getD_ext2 hTM, getD_ext3 hTM, getD_ext4 hTM]
    refine ⟨trivial, ?_, trivial, trivial, ?_, ?_, ⟨_, rfl⟩, trivial, trivial,
      trivial, ?_, ?_, ?_, ?_, ?_, ?_, ?_, ?_⟩
    · intro p hp; simp only [if_neg hp]
    · exact ⟨_, by rw [List.append_assoc, List.append_assoc, List.append_assoc]⟩
    · exact ⟨_, by rw [List.append_assoc, List.append_assoc]⟩
    · rw [hzero, hz]
    · simp
    · simp
    · simp
    · simp
    · simp
    · simp
    · intro v hv
      simp only [List.mem_append, List.mem_singleton] at hv
      rcases hv with (((hv | hv) | hv) | hv) | hv
      · exact inv.valsBound v hv
      · subst hv; exact Nat.mod_lt _ hm
      · subst hv; omega
      · subst hv; exact Nat.mod_lt _ hm
      · subst hv; exact Nat.mod_lt _ hm

theorem mine_ok_inv {s : ContractState} {sender amount now : Nat} {s' : ContractState}
    (inv : LedgerInv s) (h : mine s sender amount now = Except.ok s') : LedgerInv s' := by
  obtain ⟨hC1, hC2, hC3, hC4, ⟨e5, hC5⟩, ⟨e6, hC6⟩, ⟨e7, hC7⟩, hC8, hC9, hC10, hC11,
    hC12, hC13, hC14, hC15, hC17, hC18, hC19⟩ := mine_ok_facts inv h
  have hlen : s.fhe.vals.length ≤ s'.fhe.vals.length := by
    rw [hC5]; simp
  have hvp : ∀ hd : Handle, hd < s.fhe.vals.length → s'.fhe.val hd = s.fhe.val hd :=
    fun hd hh => val_of_extend e5 hC5 hh
  constructor
  · by_cases hexb : (s.players sender).existsFlag = true
    · rw [hC1, if_pos hexb]; exact inv.nodup
    · rw [hC1, if_neg hexb]
      rw [List.nodup_append]
      have hns : sender ∉ s.playerAddresses := fun hmem => hexb ((inv.regIff sender).mp hmem)
      exact ⟨inv.nodup, List.nodup_singleton _, by simpa using hns⟩
  · intro p
    by_cases hp : p = sender
    · subst hp
      constructor
      · intro _; exact hC3
      · intro _
        by_cases hexb : (s.players p).existsFlag = true
        · rw [hC1, if_pos hexb]; exact (inv.regIff p).mpr hexb
        · rw [hC1, if_neg hexb]; exact List.mem_append_right _ (by simp)
    · rw [hC2 p hp]
      by_cases hexb : (s.players sender).existsFlag = true
      · rw [hC1, if_pos hexb]; exact inv.regIff p
      · rw [hC1, if_neg hexb, List.mem_append]
        constructor
        · rintro (hmem | hmem)
          · exact (inv.regIff p).mp hmem
          · exact absurd (by simpa using hmem) hp
        · intro hf; exact Or.inl ((inv.regIff p).mpr hf)
  · have h0 : (0:Nat) < s.fhe.vals.length := lt_of_le_of_lt (Nat.zero_le _) inv.totalValid
    rw [hvp 0 h0]; exact inv.nullZero
  · intro p hp0
    by_cases hp : p = sender
    · subst hp; rw [hC3] at hp0; exact absurd hp0 (by simp)
    · rw [hC2 p hp] at hp0 ⊢; exact inv.noRecZero p hp0
  · exact hC17
  · intro p hpe
    by_cases hp : p = sender
    · subst hp; exact hC18
    · rw [hC2 p hp] at hpe ⊢
      exact lt_of_lt_of_le (inv.playerValid p hpe) hlen
  · exact hC19
  · have hPC : playersClearSum s
        = (s.playerAddresses.map (fun p => s.fhe.val (s.players p).totalMined)).sum := rfl
    by_cases hexb : (s.players sender).existsFlag = true
    · have hmemS : sender ∈ s.playerAddresses := (inv.regIff sender).mpr hexb
      have hfg : ∀ p ∈ s.playerAddresses, p ≠ sender →
          (fun p => s'.fhe.val (s'.players p).totalMined) p
            = (fun p => s.fhe.val (s.players p).totalMined) p := by
        intro p hp hpne
        simp only
        rw [hC2 p hpne]
        exact hvp _ (inv.playerValid p ((inv.regIff p).mp hp))
      have hkey := sum_map_swap s.playerAddresses sender
        (fun p => s'.fhe.val (s'.players p).totalMined)
        (fun p => s.fhe.val (s.players p).totalMined) inv.nodup hmemS hfg
      simp only at hkey
      have hsum := inv.sumEq
      rw [hPC] at hsum
      unfold playersClearSum
      rw [hC1, if_pos hexb, hC10, hsum]
      set S1 := (s.playerAddresses.map (fun p => s'.fhe.val (s'.players p).totalMined)).sum
      set S0 := (s.playerAddresses.map (fun p => s.fhe.val (s.players p).totalMined)).sum
      set v1 := s'.fhe.val (s'.players sender).totalMined
      set v0 := s.fhe.val (s.players sender).totalMined
      omega
    · have hns : sender ∉ s.playerAddresses := fun hmem => hexb ((inv.regIff sender).mp hmem)
      have hexf : (s.players sender).existsFlag = false := by
        cases hflag : (s.players sender).existsFlag
        · rfl
        · exact absurd hflag hexb
      have hg0 : s.fhe.val (s.players sender).totalMined = 0 := by
        rw [inv.noRecZero sender hexf]; exact inv.nullZero
      have hcong : s.playerAddresses.map (fun p => s'.fhe.val (s'.players p).totalMined)
          = s.playerAddresses.map (fun p => s.fhe.val (s.players p).totalMined) :=
        List.map_congr_left fun p hp => by
          have hpne : p ≠ sender := fun e => hns (e ▸ hp)
          rw [hC2 p hpne]
          exact hvp _ (inv.playerValid p ((inv.regIff p).mp hp))
      have hsum := inv.sumEq
      rw [hPC] at hsum
      unfold playersClearSum
      rw [hC1, if_neg hexb, List.map_append, List.sum_append, hcong, hC10]
      simp only [List.map_cons, List.map_nil, List.sum_cons, List.sum_nil]
      rw [hC11, hg0]
      set S0 := (s.playerAddresses.map (fun p => s.fhe.val (s.players p).totalMined)).sum
      omega

/-! ### Facts about the ranking loop -/

theorem getD_lt_bound (l : List Nat) (hb : ∀ w ∈ l, w < 2 ^ 32) (n : Nat) :
    l.getD n 0 < 2 ^ 32 := by
  induction l generalizing n with
  | nil => simp [List.getD]
  | cons a t ih =>
    cases n with
    | zero => simpa using hb a (List.mem_cons_self a t)
    | succ k =>
      simp only [List.getD_cons_succ]
      exact ih (fun w hw => hb w (List.mem_cons_of_mem _ hw)) k

theorem val_pres {f g : FheState} (hext : ∃ e, g.vals = f.vals ++ e) {h : Handle}
    (hh : h < f.vals.length) : g.val h = f.val h := by
  obtain ⟨e, he⟩ := hext
  exact val_of_extend e he hh

theorem bound_append_single {l : List Nat} (hb : ∀ w ∈ l, w < 2 ^ 32) {x : Nat}
    (hx : x < 2 ^ 32) : ∀ w ∈ l ++ [x], w < 2 ^ 32 := by
  intro w hw
  rcases List.mem_append.mp hw with h | h
  · exact hb w h
  · rw [List.mem_singleton.mp h]; exact hx

theorem filter_length_lt (l : List Addr) (x : Addr) (hx : x ∈ l) (p : Addr → Bool)
    (hpx : p x = false) : (l.filter p).length < l.length := by
  induction l with
  | nil => simp at hx
  | cons a t ih =>
    rcases List.mem_cons.mp hx with hxa | hxt
    · have hpa : p a = false := by rw [← hxa]; exact hpx
      rw [List.filter_cons, hpa]
      simp only [false_eq_true_iff, if_false, ite_false, List.length_cons]
      exact Nat.lt_succ_of_le (List.length_filter_le p t)
    · by_cases hpa : p a = true
      · rw [List.filter_cons, hpa]
        simp only [eq_self_iff_true, if_true, ite_true, List.length_cons]
        exact Nat.succ_lt_succ (ih hxt)
      · have hpa' : p a = false := by
          cases hpaa : p a
          · rfl
          · exact absurd hpaa hpa
        rw [List.filter_cons, hpa']
        simp only [false_eq_true_iff, if_false, ite_false, List.length_cons]
        exact Nat.lt_succ_of_lt (ih hxt)

theorem rankStepState_spec (players : Addr → PlayerData) (other : Addr)
    (myAmount count : Handle) (f : FheState)
    (hmy : myAmount < f.vals.length) (hcount : count < f.vals.length) :
    (rankStepState players other myAmount count f).2.val
        (rankStepState players other myAmount count f).1
      = (f.val count +
          if f.val myAmount < f.val (players other).totalMined then 1 else 0) % 2 ^ 32 ∧
    (rankStepState players other myAmount count f).1
      < (rankStepState players other myAmount count f).2.vals.length ∧
    (∃ e, (rankStepState players other myAmount count f).2.vals = f.vals ++ e) ∧
    (rankStepState players other myAmount count f).2.selfGranted = f.selfGranted ∧
    (rankStepState players other myAmount count f).2.userGranted = f.userGranted := by
  have h1M : (1:Nat) % 2 ^ 32 = 1 := by norm_num
  unfold rankStepState
  simp only [fheGt_fst, fheGt_vals, fheGt_self, fheGt_user,
    asEuint32_fst, asEuint32_vals, asEuint32_self, asEuint32_user,
    fheSelect_fst, fheSelect_vals, fheSelect_self, fheSelect_user,
    fheAdd_fst, fheAdd_vals, fheAdd_self, fheAdd_user,
    FheState.val, Nat.zero_mod, h1M]
  simp only [getD_snoc_len, getD_snoc2, getD_snoc3, getD_ext1 hcount, getD_ext2 hcount,
    getD_ext3 hcount, getD_ext4 hcount]
  refine ⟨?_, by simp, ⟨_, by rw [List.append_assoc, List.append_assoc, List.append_assoc,
    List.append_assoc]⟩, trivial, trivial⟩
  by_cases hlt : f.vals.getD myAmount 0 < f.vals.getD (players other).totalMined 0
  · rw [if_pos hlt]; simp
  · rw [if_neg hlt]; simp

theorem ite_lt {c : Prop} [Decidable c] {u v M : Nat} (hu : u < M) (hv : v < M) :
    (if c then u else v) < M := by
  split
  · exact hu
  · exact hv

theorem rankStepState_bound (players : Addr → PlayerData) (other : Addr)
    (myAmount count : Handle) (f : FheState) (hb : ∀ w ∈ f.vals, w < 2 ^ 32) :
    ∀ w ∈ (rankStepState players other myAmount count f).2.vals, w < 2 ^ 32 := by
  have hm : (0:Nat) < 2 ^ 32 := by norm_num
  unfold rankStepState
  simp only [fheGt_fst, fheGt_vals, asEuint32_fst, asEuint32_vals,
    fheSelect_fst, fheSelect_vals, fheAdd_fst, fheAdd_vals, FheState.val, Nat.zero_mod]
  have hx1 : (if f.vals.getD myAmount 0 < f.vals.getD (players other).totalMined 0
      then 1 else 0) < 2 ^ 32 := by split <;> norm_num
  have hb1 := bound_append_single hb hx1
  have hx2 : (1:Nat) % 2 ^ 32 < 2 ^ 32 := Nat.mod_lt 1 hm
  have hb2 := bound_append_single hb1 hx2
  have hx3 : (0:Nat) < 2 ^ 32 := hm
  have hb3 := bound_append_single hb2 hx3
  intro w hw
  simp only [List.mem_append, List.mem_singleton] at hw
  rcases hw with ((((hw | hw) | hw) | hw) | hw) | hw
  · exact hb w hw
  · subst hw; exact hx1
  · subst hw; exact hx2
  · subst hw; exact hx3
  · subst hw; exact ite_lt (getD_lt_bound _ hb3 _) (getD_lt_bound _ hb3 _)
  · subst hw; exact Nat.mod_lt _ hm

theorem rankLoop_frame (players : Addr → PlayerData) (sender : Addr) (myAmount : Handle) :
    ∀ (rest : List Addr) (count : Handle) (f : FheState),
      (∃ e, (rankLoop players sender myAmount rest count f).2.vals = f.vals ++ e) ∧
      (rankLoop players sender myAmount rest count f).2.selfGranted = f.selfGranted ∧
      (rankLoop players sender myAmount rest count f).2.userGranted = f.userGranted := by
  intro rest
  induction rest with
  | nil =>
    intro count f
    exact ⟨⟨[], by simp [rankLoop]⟩, by simp [rankLoop], by simp [rankLoop]⟩
  | cons other t ih =>
    intro count f
    by_cases ho : other = sender
    · simpa only [rankLoop, if_pos ho] using ih count f
    · have hstep : ∃ e, (rankStepState players other myAmount count f).2.vals
          = f.vals ++ e := by
        unfold rankStepState
        simp only [fheAdd_vals, fheSelect_vals, asEuint32_vals, fheGt_vals]
        exact ⟨_, by rw [List.append_assoc, List.append_assoc, List.append_assoc,
          List.append_assoc]⟩
      have hself : (rankStepState players other myAmount count f).2.selfGranted
          = f.selfGranted := by
        unfold rankStepState
        simp only [fheAdd_self, fheSelect_self, asEuint32_self, fheGt_self]
      have huser : (rankStepState players other myAmount count f).2.userGranted
          = f.userGranted := by
        unfold rankStepState
        simp only [fheAdd_user, fheSelect_user, asEuint32_user, fheGt_user]
      obtain ⟨⟨e2, he2⟩, hs2, hu2⟩ := ih (rankStepState players other myAmount count f).1
        (rankStepState players other myAmount count f).2
      refine ⟨?_, ?_, ?_⟩ <;> simp only [rankLoop, if_neg ho]
      · obtain ⟨e1, he1⟩ := hstep
        exact ⟨e1 ++ e2, by rw [he2, he1, List.append_assoc]⟩
      · rw [hs2, hself]
      · rw [hu2, huser]

theorem rankLoop_bound (players : Addr → PlayerData) (sender : Addr) (myAmount : Handle) :
    ∀ (rest : List Addr) (count : Handle) (f : FheState),
      (∀ w ∈ f.vals, w < 2 ^ 32) →
      ∀ w ∈ (rankLoop players sender myAmount rest count f).2.vals, w < 2 ^ 32 := by
  intro rest
  induction rest with
  | nil =>
    intro count f hb
    simpa [rankLoop] using hb
  | cons other t ih =>
    intro count f hb
    by_cases ho : other = sender
    · simpa only [rankLoop, if_pos ho] using ih count f hb
    · simp only [rankLoop, if_neg ho]
      exact ih _ _ (rankStepState_bound players other myAmount count f hb)

theorem rankLoop_spec (players : Addr → PlayerData) (sender : Addr) (myAmount : Handle)
    (m : Nat) (v : Addr → Nat) :
    ∀ (rest : List Addr) (count : Handle) (f : FheState) (c : Nat),
      (∀ w ∈ f.vals, w < 2 ^ 32) →
      count < f.vals.length →
      myAmount < f.vals.length →
      f.val myAmount = m →
      (∀ p ∈ rest, (players p).totalMined < f.vals.length ∧
        f.val (players p).totalMined = v p) →
      f.val count = c →
      (rankLoop players sender myAmount rest count f).2.val
          (rankLoop players sender myAmount rest count f).1
        = (c + (rest.filter (fun p => decide (p ≠ sender ∧ m < v p))).length) % 2 ^ 32 ∧
      (rankLoop players sender myAmount rest count f).1
        < (rankLoop players sender myAmount rest count f).2.vals.length := by
  intro rest
  induction rest with
  | nil =>
    intro count f c hb hcount hmy hm hrest hc
    have hcM : c < 2 ^ 32 := by
      rw [← hc]; exact getD_lt_bound f.vals hb count
    constructor
    · simp only [rankLoop, List.filter_nil, List.length_nil, Nat.add_zero]
      rw [hc, Nat.mod_eq_of_lt hcM]
    · simpa [rankLoop] using hcount
  | cons other t ih =>
    intro count f c hb hcount hmy hm hrest hc
    by_cases ho : other = sender
    · have hdec : decide (other ≠ sender ∧ m < v other) = false := by simp [ho]
      simp only [rankLoop, if_pos ho, List.filter_cons, hdec, false_eq_true_iff,
        if_false, ite_false]
      exact ih count f c hb hcount hmy hm
        (fun p hp => hrest p (List.mem_cons_of_mem _ hp)) hc
    · obtain ⟨hsv, hslt, hsext, hsself, hsuser⟩ :=
        rankStepState_spec players other myAmount count f hmy hcount
    -- continued below
      obtain ⟨hoval, hovv⟩ := hrest other (List.mem_cons_self other t)
      have hsv' : (rankStepState players other myAmount count f).2.val
          (rankStepState players other myAmount count f).1
          = (c + if m < v other then 1 else 0) % 2 ^ 32 := by
        rw [hsv, hc, hm, hovv]
      have hb' := rankStepState_bound players other myAmount count f hb
      have hlen' : f.vals.length ≤ (rankStepState players other myAmount count f).2.vals.length := by
        obtain ⟨e, he⟩ := hsext
        rw [he]; simp
      have hmy' : myAmount < (rankStepState players other myAmount count f).2.vals.length :=
        lt_of_lt_of_le hmy hlen'
      have hm' : (rankStepState players other myAmount count f).2.val myAmount = m :=
        (val_pres hsext hmy).trans hm
      have hrest' : ∀ p ∈ t,
          (players p).totalMined < (rankStepState players other myAmount count f).2.vals.length ∧
          (rankStepState players other myAmount count f).2.val (players p).totalMined = v p := by
        intro p hp
        obtain ⟨h1, h2⟩ := hrest p (List.mem_cons_of_mem _ hp)
        exact ⟨lt_of_lt_of_le h1 hlen', (val_pres hsext h1).trans h2⟩
      obtain ⟨ihval, ihlt⟩ := ih (rankStepState players other myAmount count f).1
        (rankStepState players other myAmount count f).2
        ((c + if m < v other then 1 else 0) % 2 ^ 32) hb' hslt hmy' hm' hrest' hsv'
      constructor
      · simp only [rankLoop, if_neg ho]
        rw [ihval]
        have hdec : decide (other ≠ sender ∧ m < v other) = decide (m < v other) := by
          simp [ho]
        rw [List.filter_cons, hdec]
        set K := (t.filter (fun p => decide (p ≠ sender ∧ m < v p))).length
        by_cases hmv : m < v other
        · have hdec2 : decide (m < v other) = true := decide_eq_true hmv
          rw [hdec2, if_pos hmv]
          simp only [eq_self_iff_true, if_true, ite_true, List.length_cons]
          omega
        · have hdec2 : decide (m < v other) = false := decide_eq_false hmv
          rw [hdec2, if_neg hmv]
          simp only [false_eq_true_iff, if_false, ite_false]
          omega
      · simp only [rankLoop, if_neg ho]
        exact ihlt

theorem fheAdd_val_fst (f : FheState) (a b : Handle) :
    (f.fheAdd a b).2.val (f.fheAdd a b).1 = (f.val a + f.val b) % 2 ^ 32 := by
  simp only [fheAdd_fst, fheAdd_vals, FheState.val]
  exact getD_snoc_len _ _

theorem allow_val (f : FheState) (h : Handle) (p : Addr) (x : Handle) :
    (f.allow h p).val x = f.val x := rfl

theorem allowThis_val (f : FheState) (h : Handle) (x : Handle) :
    (f.allowThis h).val x = f.val x := rfl

theorem rank_frame (s : ContractState) (sender : Addr) :
    (rankState s sender).players = s.players ∧
    (rankState s sender).playerAddresses = s.playerAddresses ∧
    (rankState s sender).totalMinedAmount = s.totalMinedAmount ∧
    (rankState s sender).minMineInterval = s.minMineInterval ∧
    (rankState s sender).rewardToken = s.rewardToken ∧
    (∃ e, (rankState s sender).fhe.vals = s.fhe.vals ++ e) ∧
    (∃ e, (rankState s sender).fhe.selfGranted = s.fhe.selfGranted ++ e) ∧
    (∃ e, (rankState s sender).fhe.userGranted = s.fhe.userGranted ++ e) := by
  unfold rankState calculateMyRank
  by_cases hex : (s.players sender).existsFlag = true
  · simp only [hex, eq_self_iff_true, if_true, ite_true]
    obtain ⟨⟨e1, he1⟩, hs1, hu1⟩ := rankLoop_frame s.players sender
      (s.players sender).totalMined s.playerAddresses
      (s.fhe.asEuint32 0).1 (s.fhe.asEuint32 0).2
    refine ⟨trivial, trivial, trivial, trivial, trivial, ?_, ?_, ?_⟩
    · exact ⟨_, by
        simp only [allow_vals, allowThis_vals, fheAdd_vals, asEuint32_vals]
        rw [he1]
        simp only [asEuint32_vals]
        rw [List.append_assoc, List.append_assoc, List.append_assoc]⟩
    · exact ⟨_, by
        rw [allow_self, allowThis_self, fheAdd_self, asEuint32_self, hs1, asEuint32_self]⟩
    · exact ⟨_, by
        rw [allow_user, allowThis_user, fheAdd_user, asEuint32_user, hu1, asEuint32_user]⟩
  · simp only [hex, ite_false, if_false]
    exact ⟨rfl, rfl, rfl, rfl, rfl, ⟨[], (List.append_nil _).symm⟩,
      ⟨[], (List.append_nil _).symm⟩, ⟨[], (List.append_nil _).symm⟩⟩

theorem rankState_bound (s : ContractState) (sender : Addr)
    (hb : ∀ w ∈ s.fhe.vals, w < 2 ^ 32) :
    ∀ w ∈ (rankState s sender).fhe.vals, w < 2 ^ 32 := by
  have hm : (0:Nat) < 2 ^ 32 := by norm_num
  unfold rankState calculateMyRank
  by_cases hex : (s.players sender).existsFlag = true
  · simp only [hex, eq_self_iff_true, if_true, ite_true]
    simp only [allow_vals, allowThis_vals, fheAdd_vals, asEuint32_vals]
    have hbz : ∀ w ∈ (s.fhe.asEuint32 0).2.vals, w < 2 ^ 32 := by
      simp only [asEuint32_vals]
      exact bound_append_single hb (Nat.mod_lt _ hm)
    have hbl := rankLoop_bound s.players sender (s.players sender).totalMined
      s.playerAddresses (s.fhe.asEuint32 0).1 (s.fhe.asEuint32 0).2 hbz
    have hb1 := bound_append_single hbl (Nat.mod_lt 1 hm)
    exact bound_append_single hb1 (Nat.mod_lt _ hm)
  · simp only [hex, ite_false, if_false]
    exact hb

theorem rank_state_inv {s : ContractState} (sender : Addr) (inv : LedgerInv s) :
    LedgerInv (rankState s sender) := by
  obtain ⟨hp, ha, ht, hmi, hrt, hve, hse, hue⟩ := rank_frame s sender
  have hlen : s.fhe.vals.length ≤ (rankState s sender).fhe.vals.length := by
    obtain ⟨e, he⟩ := hve
    rw [he]; simp
  constructor
  · rw [ha]; exact inv.nodup
  · intro p; rw [ha, hp]; exact inv.regIff p
  · have h0 : (0:Nat) < s.fhe.vals.length := lt_of_le_of_lt (Nat.zero_le _) inv.totalValid
    rw [val_pres hve h0]; exact inv.nullZero
  · intro p h0; rw [hp] at h0 ⊢; exact inv.noRecZero p h0
  · rw [ht]; exact lt_of_lt_of_le inv.totalValid hlen
  · intro p hpe; rw [hp] at hpe ⊢; exact lt_of_lt_of_le (inv.playerValid p hpe) hlen
  · exact rankState_bound s sender inv.valsBound
  · have hTv : (rankState s sender).fhe.val (rankState s sender).totalMinedAmount
        = s.fhe.val s.totalMinedAmount := by
      rw [ht]; exact val_pres hve inv.totalValid
    have hsum : playersClearSum (rankState s sender) = playersClearSum s := by
      unfold playersClearSum
      rw [ha, hp]
      exact congrArg List.sum (List.map_congr_left fun p hp2 =>
        val_pres hve (inv.playerValid p ((inv.regIff p).mp hp2)))
    rw [hTv, hsum]
    exact inv.sumEq

theorem rank_grants {s : ContractState} {sender : Addr}
    (hex : (s.players sender).existsFlag = true) :
    rankHandle s sender ∈ (rankState s sender).fhe.selfGranted ∧
    (rankHandle s sender, sender) ∈ (rankState s sender).fhe.userGranted := by
  unfold rankHandle rankState calculateMyRank
  simp only [hex, eq_self_iff_true, if_true, ite_true]
  constructor
  · simp only [allow_self, allowThis_self]
    exact List.mem_append_right _ (by simp)
  · simp only [allow_user]
    exact List.mem_append_right _ (by simp)

theorem inv_applyOp {s : ContractState} (inv : LedgerInv s) (op : Op) :
    LedgerInv (applyOp s op) := by
  cases op with
  | mineOp sender amount now =>
    simp only [applyOp]
    cases hmine : mine s sender amount now with
    | ok s' => exact mine_ok_inv inv hmine
    | error e => exact inv
  | rankOp sender =>
    have hsame : applyOp s (Op.rankOp sender) = rankState s sender := rfl
    rw [hsame]
    exact rank_state_inv sender inv

theorem inv_runTrace {s : ContractState} (inv : LedgerInv s) (tr : List Op) :
    LedgerInv (runTrace s tr) := by
  induction tr generalizing s with
  | nil => exact inv
  | cons op tr ih => exact ih (inv_applyOp inv op)

theorem rankClear_spec {s : ContractState} {sender : Addr}
    (inv : LedgerInv s) (hex : (s.players sender).existsFlag = true)
    (hlen : s.playerAddresses.length < 2 ^ 32) :
    rankClear s sender = Except.ok
      ((s.playerAddresses.filter (fun p => decide (p ≠ sender ∧
          s.fhe.val (s.players sender).totalMined
            < s.fhe.val (s.players p).totalMined))).length + 1) := by
  have hm0 : (0:Nat) < 2 ^ 32 := by norm_num
  have hT : (s.players sender).totalMined < s.fhe.vals.length := inv.playerValid sender hex
  have hb0 : ∀ w ∈ (s.fhe.asEuint32 0).2.vals, w < 2 ^ 32 := by
    simp only [asEuint32_vals]
    exact bound_append_single inv.valsBound (Nat.mod_lt _ hm0)
  have hext0 : ∃ e, (s.fhe.asEuint32 0).2.vals = s.fhe.vals ++ e := ⟨_, rfl⟩
  have hcount0 : (s.fhe.asEuint32 0).1 < (s.fhe.asEuint32 0).2.vals.length := by simp
  have hmy0 : (s.players sender).totalMined < (s.fhe.asEuint32 0).2.vals.length :=
    lt_of_lt_of_le hT (by simp)
  have hm1 : (s.fhe.asEuint32 0).2.val (s.players sender).totalMined
      = s.fhe.val (s.players sender).totalMined := val_pres hext0 hT
  have hrest : ∀ p ∈ s.playerAddresses,
      (s.players p).totalMined < (s.fhe.asEuint32 0).2.vals.length ∧
      (s.fhe.asEuint32 0).2.val (s.players p).totalMined
        = s.fhe.val (s.players p).totalMined := by
    intro p hp
    have hv := inv.playerValid p ((inv.regIff p).mp hp)
    exact ⟨lt_of_lt_of_le hv (by simp), val_pres hext0 hv⟩
  have hc0 : (s.fhe.asEuint32 0).2.val (s.fhe.asEuint32 0).1 = 0 := by
    simp only [asEuint32_fst, asEuint32_vals, FheState.val]
    rw [getD_snoc_len]
    exact Nat.zero_mod _
  obtain ⟨hval, hlt2⟩ := rankLoop_spec s.players sender (s.players sender).totalMined
    (s.fhe.val (s.players sender).totalMined)
    (fun p => s.fhe.val (s.players p).totalMined)
    s.playerAddresses (s.fhe.asEuint32 0).1 (s.fhe.asEuint32 0).2 0
    hb0 hcount0 hmy0 hm1 hrest hc0
  have hmemS : sender ∈ s.playerAddresses := (inv.regIff sender).mpr hex
  have hkb : (s.playerAddresses.filter (fun p => decide (p ≠ sender ∧
      s.fhe.val (s.players sender).totalMined
        < s.fhe.val (s.players p).totalMined))).length < s.playerAddresses.length :=
    filter_length_lt _ sender hmemS _ (by simp)
  have hk1M : (s.playerAddresses.filter (fun p => decide (p ≠ sender ∧
      s.fhe.val (s.players sender).totalMined
        < s.fhe.val (s.players p).totalMined))).length + 1 < 2 ^ 32 :=
    lt_of_le_of_lt (Nat.succ_le_of_lt hkb) hlen
  have v1 : ((rankLoop s.players sender (s.players sender).totalMined s.playerAddresses
      (s.fhe.asEuint32 0).1 (s.fhe.asEuint32 0).2).2.asEuint32 1).2.val
        (rankLoop s.players sender (s.players sender).totalMined s.playerAddresses
          (s.fhe.asEuint32 0).1 (s.fhe.asEuint32 0).2).1
      = (0 + (s.playerAddresses.filter (fun p => decide (p ≠ sender ∧
          s.fhe.val (s.players sender).totalMined
            < s.fhe.val (s.players p).totalMined))).length) % 2 ^ 32 :=
    (val_pres ⟨_, rfl⟩ hlt2).trans hval
  have v2 : ((rankLoop s.players sender (s.players sender).totalMined s.playerAddresses
      (s.fhe.asEuint32 0).1 (s.fhe.asEuint32 0).2).2.asEuint32 1).2.val
        ((rankLoop s.players sender (s.players sender).totalMined s.playerAddresses
          (s.fhe.asEuint32 0).1 (s.fhe.asEuint32 0).2).2.asEuint32 1).1 = 1 := by
    simp only [asEuint32_fst, asEuint32_vals, FheState.val]
    rw [getD_snoc_len]
    norm_num
  unfold rankClear calculateMyRank
  simp only [hex, eq_self_iff_true, if_true, ite_true]
  rw [allow_val, allowThis_val, fheAdd_val_fst, v1, v2, Nat.zero_add, Nat.mod_add_mod,
    Nat.mod_eq_of_lt hk1M]

/-! ### Trace-level lemmas -/

theorem runTrace_aggregate {s : ContractState} (inv : LedgerInv s) (tr : List Op) :
    clearAggregate (runTrace s tr) = (clearAggregate s + succSum s tr) % 2 ^ 32 := by
  induction tr generalizing s with
  | nil =>
    have hlt : clearAggregate s < 2 ^ 32 := getD_lt_bound _ inv.valsBound _
    simp only [runTrace, succSum, Nat.add_zero]
    rw [Nat.mod_eq_of_lt hlt]
  | cons op tr ih =>
    cases op with
    | mineOp sender amount now =>
      cases hmine : mine s sender amount now with
      | ok s' =>
        simp only [runTrace, succSum, applyOp, hmine]
        have hinv' := mine_ok_inv inv hmine
        rw [ih hinv']
        obtain ⟨_, _, _, _, _, _, _, _, _, hC10, _⟩ := mine_ok_facts inv hmine
        unfold clearAggregate
        rw [hC10]
        set A := s.fhe.val s.totalMinedAmount
        set B := succSum s' tr
        omega
      | error e =>
        simp only [runTrace, succSum, applyOp, hmine]
        exact ih inv
    | rankOp sender =>
      simp only [runTrace, succSum]
      rw [ih (inv_applyOp inv (Op.rankOp sender))]
      have hsame : applyOp s (Op.rankOp sender) = rankState s sender := rfl
      obtain ⟨_, _, ht, _, _, hve, _, _⟩ := rank_frame s sender
      have hagg : clearAggregate (rankState s sender) = clearAggregate s := by
        unfold clearAggregate
        rw [ht]
        exact val_pres hve inv.totalValid
      rw [hsame, hagg]

theorem runTrace_addrs {s : ContractState} (inv : LedgerInv s) (tr : List Op) :
    (runTrace s tr).playerAddresses
      = List.foldl regStep s.playerAddresses (succSenders s tr) := by
  induction tr generalizing s with
  | nil => simp [runTrace, succSenders]
  | cons op tr ih =>
    cases op with
    | mineOp sender amount now =>
      cases hmine : mine s sender amount now with
      | ok s' =>
        simp only [runTrace, succSenders, applyOp, hmine]
        rw [ih (mine_ok_inv inv hmine)]
        simp only [List.foldl_cons]
        congr 1
        obtain ⟨hC1, _⟩ := mine_ok_facts inv hmine
        rw [hC1]
        unfold regStep
        by_cases hexb : (s.players sender).existsFlag = true
        · rw [if_pos hexb, if_pos ((inv.regIff sender).mpr hexb)]
        · rw [if_neg hexb, if_neg (fun hmem => hexb ((inv.regIff sender).mp hmem))]
      | error e =>
        simp only [runTrace, succSenders, applyOp, hmine]
        exact ih inv
    | rankOp sender =>
      simp only [runTrace, succSenders]
      rw [ih (inv_applyOp inv (Op.rankOp sender))]
      congr 1
      have hsame : applyOp s (Op.rankOp sender) = rankState s sender := rfl
      rw [hsame]
      exact (rank_frame s sender).2.1

theorem addrs_eq_firstOccur (rt : Addr) (mi : Nat) (tr : List Op) :
    (runTrace (initState rt mi) tr).playerAddresses
      = firstOccur (succSenders (initState rt mi) tr) := by
  rw [runTrace_addrs (initState_inv rt mi) tr, firstOccur_eq_foldl]
  rfl

theorem firstOccur_nodup (l : List Addr) : (firstOccur l).Nodup := by
  rw [firstOccur_eq_foldl]
  exact nodup_foldl_regStep l [] List.nodup_nil

theorem mem_firstOccur (l : List Addr) (x : Addr) : x ∈ firstOccur l ↔ x ∈ l := by
  rw [firstOccur_eq_foldl, mem_foldl_regStep]
  simp

theorem firstOccur_length_eq_card (l : List Addr) :
    (firstOccur l).length = l.toFinset.card := by
  have h1 : (firstOccur l).toFinset = l.toFinset := by
    ext a
    simp only [List.mem_toFinset]
    exact mem_firstOccur l a
  rw [← h1]
  exact (List.toFinset_card_of_nodup (firstOccur_nodup l)).symm

theorem getPlayerAddress_eq (s : ContractState) (i : Nat) :
    getPlayerAddress s i = match s.playerAddresses[i]? with
      | some a => Except.ok a
      | none => Except.error MCError.indexOutOfBounds := by
  unfold getPlayerAddress
  by_cases hi : i < s.playerAddresses.length
  · rw [dif_pos hi, List.getElem?_eq_getElem hi]
    rfl
  · rw [dif_neg hi, List.getElem?_eq_none (Nat.le_of_not_lt hi)]

/-! ### Claim theorems -/

/-- C1: for every sequence of operations from the initial state, the cleartext of
the GlobalAggregate equals the sum mod 2^32 of all successfully contributed
cleartext amounts, and equals the sum mod 2^32 of every registered player's
cleartext total. -/
theorem aggregate_equals_both_sums (rt : Addr) (mi : Nat) (tr : List Op) :
    clearAggregate (runTrace (initState rt mi) tr)
      = succSum (initState rt mi) tr % 2 ^ 32 ∧
    clearAggregate (runTrace (initState rt mi) tr)
      = playersClearSum (runTrace (initState rt mi) tr) % 2 ^ 32 := by
  constructor
  · have h := runTrace_aggregate (initState_inv rt mi) tr
    have h0 : clearAggregate (initState rt mi) = 0 := rfl
    rw [h, h0, Nat.zero_add]
  · exact (inv_runTrace (initState_inv rt mi) tr).sumEq

/-- C2: in every reachable state, for a registered principal whose rank is
computed, the returned handle decrypts to k+1 where k is the number of other
registered principals with strictly greater cleartext totals (ties are not
counted). -/
theorem rank_is_strict_greater_count_plus_one (rt : Addr) (mi : Nat) (tr : List Op)
    (sender : Addr)
    (hex : ((runTrace (initState rt mi) tr).players sender).existsFlag = true)
    (hlen : (runTrace (initState rt mi) tr).playerAddresses.length < 2 ^ 32) :
    rankClear (runTrace (initState rt mi) tr) sender = Except.ok
      (((runTrace (initState rt mi) tr).playerAddresses.filter (fun p =>
        decide (p ≠ sender ∧
          clearTotal (runTrace (initState rt mi) tr) sender
            < clearTotal (runTrace (initState rt mi) tr) p))).length + 1) :=
  rankClear_spec (inv_runTrace (initState_inv rt mi) tr) hex hlen

/-- C2 witness: two players with totals 10 and 20; the smaller one has rank 2. -/
theorem rank_is_strict_greater_count_plus_one_witness :
    rankClear (runTrace (initState 0 10) [Op.mineOp 1 10 0, Op.mineOp 2 20 100]) 1
      = Except.ok 2 :=
  rank_is_strict_greater_count_plus_one 0 10 [Op.mineOp 1 10 0, Op.mineOp 2 20 100] 1
    (by decide) (by decide)

/-- C3: `mine` fails with RateLimited exactly when a record exists and
`now < lastMineTime + minMineInterval`; a first-ever contribution always
succeeds. -/
theorem rateLimited_iff_and_first_free (s : ContractState) (sender amount now : Nat) :
    (mine s sender amount now = Except.error MCError.rateLimited ↔
      ((s.players sender).existsFlag = true ∧
        now < (s.players sender).lastMineTime + s.minMineInterval)) ∧
    ((s.players sender).existsFlag = false → mineOk s sender amount now = true) := by
  constructor
  · constructor
    · intro h
      by_cases hc : (s.players sender).existsFlag = true ∧
          now < (s.players sender).lastMineTime + s.minMineInterval
      · exact hc
      · exfalso
        unfold mine at h
        rw [if_neg hc] at h
        simp at h
    · intro hc
      unfold mine
      rw [if_pos hc]
  · intro hf
    have hc : ¬((s.players sender).existsFlag = true ∧
        now < (s.players sender).lastMineTime + s.minMineInterval) := by
      intro h
      rw [hf] at h
      exact absurd h.1 (by simp)
    unfold mineOk mine
    rw [if_neg hc]

/-- C3 witness: a second contribution 5 seconds after the first is rate limited
(interval 10), and a brand-new principal succeeds at any time. -/
theorem rateLimited_iff_and_first_free_witness :
    mine (applyOp (initState 0 10) (Op.mineOp 1 10 0)) 1 5 5
      = Except.error MCError.rateLimited ∧
    mineOk (initState 0 10) 2 5 999999 = true :=
  ⟨(rateLimited_iff_and_first_free (applyOp (initState 0 10) (Op.mineOp 1 10 0))
      1 5 5).1.mpr (by decide),
   (rateLimited_iff_and_first_free (initState 0 10) 2 5 999999).2 (by decide)⟩

/-- C4: a RateLimited `mine` reverts: the resulting ledger state is exactly the
previous one, so `getPlayerTotalMined` and `getTotalMinedAmount` answer as
after the last successful contribution. -/
theorem rateLimited_leaves_state_unchanged (s : ContractState) (sender amount now : Nat)
    (h : mine s sender amount now = Except.error MCError.rateLimited) :
    applyOp s (Op.mineOp sender amount now) = s ∧
    (∀ p, getPlayerTotalMined (applyOp s (Op.mineOp sender amount now)) p
      = getPlayerTotalMined s p) ∧
    getTotalMinedAmount (applyOp s (Op.mineOp sender amount now))
      = getTotalMinedAmount s := by
  have happ : applyOp s (Op.mineOp sender amount now) = s := by
    simp only [applyOp, h]
  exact ⟨happ, fun p => by rw [happ], by rw [happ]⟩

/-- C4 witness: the rate-limited second call leaves the state of the first call. -/
theorem rateLimited_leaves_state_unchanged_witness :
    applyOp (applyOp (initState 0 10) (Op.mineOp 1 10 0)) (Op.mineOp 1 5 5)
      = applyOp (initState 0 10) (Op.mineOp 1 10 0) :=
  (rateLimited_leaves_state_unchanged (applyOp (initState 0 10) (Op.mineOp 1 10 0))
    1 5 5 rfl).1

/-- C5: in every reachable state a principal is in the registry iff its record
has `exists = true`, the registry has no duplicates, and `getPlayerCount`
equals the number of distinct principals with a successful contribution. -/
theorem registry_iff_exists_and_count (rt : Addr) (mi : Nat) (tr : List Op) (p : Addr) :
    (p ∈ (runTrace (initState rt mi) tr).playerAddresses ↔
      ((runTrace (initState rt mi) tr).players p).existsFlag = true) ∧
    (runTrace (initState rt mi) tr).playerAddresses.Nodup ∧
    getPlayerCount (runTrace (initState rt mi) tr)
      = (succSenders (initState rt mi) tr).toFinset.card := by
  have inv := inv_runTrace (initState_inv rt mi) tr
  refine ⟨inv.regIff p, inv.nodup, ?_⟩
  unfold getPlayerCount
  rw [addrs_eq_firstOccur, firstOccur_length_eq_card]

/-- C5 witness: three successful calls by two distinct principals give count 2. -/
theorem registry_iff_exists_and_count_witness :
    getPlayerCount (runTrace (initState 0 10)
        [Op.mineOp 1 10 0, Op.mineOp 1 5 11, Op.mineOp 2 20 12])
      = (succSenders (initState 0 10)
          [Op.mineOp 1 10 0, Op.mineOp 1 5 11, Op.mineOp 2 20 12]).toFinset.card :=
  (registry_iff_exists_and_count 0 10
    [Op.mineOp 1 10 0, Op.mineOp 1 5 11, Op.mineOp 2 20 12] 1).2.2

/-- C6: after every successful `mine` in a reachable state the AccessGrant
relation contains the pair (updated player total, sender) and the updated total
is self-granted; every successful `calculateMyRank` self-grants the returned
rank handle and grants it to the caller before returning. -/
theorem grants_after_mine_and_rank (rt : Addr) (mi : Nat) (tr : List Op)
    (sender amount now : Nat) :
    (mineOk (runTrace (initState rt mi) tr) sender amount now = true →
      (((applyOp (runTrace (initState rt mi) tr) (Op.mineOp sender amount now)).players
            sender).totalMined, sender)
        ∈ (applyOp (runTrace (initState rt mi) tr)
            (Op.mineOp sender amount now)).fhe.userGranted ∧
      (((applyOp (runTrace (initState rt mi) tr) (Op.mineOp sender amount now)).players
            sender).totalMined)
        ∈ (applyOp (runTrace (initState rt mi) tr)
            (Op.mineOp sender amount now)).fhe.selfGranted) ∧
    (((runTrace (initState rt mi) tr).players sender).existsFlag = true →
      rankHandle (runTrace (initState rt mi) tr) sender
        ∈ (rankState (runTrace (initState rt mi) tr) sender).fhe.selfGranted ∧
      (rankHandle (runTrace (initState rt mi) tr) sender, sender)
        ∈ (rankState (runTrace (initState rt mi) tr) sender).fhe.userGranted) := by
  constructor
  · intro hok
    cases hmine : mine (runTrace (initState rt mi) tr) sender amount now with
    | ok s' =>
      simp only [applyOp, hmine]
      obtain ⟨_, _, _, _, _, _, _, _, _, _, _, hC12, hC13, _⟩ :=
        mine_ok_facts (inv_runTrace (initState_inv rt mi) tr) hmine
      exact ⟨hC13, hC12⟩
    | error e =>
      unfold mineOk at hok
      rw [hmine] at hok
      simp at hok
  · intro hex
    exact rank_grants hex

/-- C6 witness: after a first contribution the sender holds a grant on its
total, and its rank handle is granted after a rank call. -/
theorem grants_after_mine_and_rank_witness :
    (((applyOp (initState 0 10) (Op.mineOp 1 5 0)).players 1).totalMined, 1)
      ∈ (applyOp (initState 0 10) (Op.mineOp 1 5 0)).fhe.userGranted ∧
    rankHandle (runTrace (initState 0 10) [Op.mineOp 1 5 0]) 1
      ∈ (rankState (runTrace (initState 0 10) [Op.mineOp 1 5 0]) 1).fhe.selfGranted :=
  ⟨((grants_after_mine_and_rank 0 10 [] 1 5 0).1 (by decide)).1,
   ((grants_after_mine_and_rank 0 10 [Op.mineOp 1 5 0] 1 5 0).2 (by decide)).1⟩

/-- C7 counterexample: already the first `mine` from the initial state runs a
homomorphic add whose operands (the lazily created zero total, handle 3, and
the constructor aggregate, handle 1) were never self-granted, so not every
intermediate handle is self-granted before use. -/
theorem selfgrant_discipline_counterexample :
    ¬ selfGrantDiscipline (applyOp (initState 0 10) (Op.mineOp 1 5 0)).fhe := by
  decide

/-- C7 amended: the handles the contract stores or returns — the imported
amount, the updated player total, the updated aggregate, and the rank handle —
are self-granted before their transition returns; intermediate handles (the
rank-loop count, isGreater and increment handles, the constants, the lazily
created zero total and the constructor aggregate) are not self-granted at use. -/
theorem selfgrant_stored_handles (rt : Addr) (mi : Nat) (tr : List Op)
    (sender amount now : Nat) :
    (mineOk (runTrace (initState rt mi) tr) sender amount now = true →
      (runTrace (initState rt mi) tr).fhe.vals.length
        ∈ (applyOp (runTrace (initState rt mi) tr)
            (Op.mineOp sender amount now)).fhe.selfGranted ∧
      (((applyOp (runTrace (initState rt mi) tr) (Op.mineOp sender amount now)).players
            sender).totalMined)
        ∈ (applyOp (runTrace (initState rt mi) tr)
            (Op.mineOp sender amount now)).fhe.selfGranted ∧
      (applyOp (runTrace (initState rt mi) tr)
          (Op.mineOp sender amount now)).totalMinedAmount
        ∈ (applyOp (runTrace (initState rt mi) tr)
            (Op.mineOp sender amount now)).fhe.selfGranted) ∧
    (((runTrace (initState rt mi) tr).players sender).existsFlag = true →
      rankHandle (runTrace (initState rt mi) tr) sender
        ∈ (rankState (runTrace (initState rt mi) tr) sender).fhe.selfGranted) := by
  constructor
  · intro hok
    cases hmine : mine (runTrace (initState rt mi) tr) sender amount now with
    | ok s' =>
      simp only [applyOp, hmine]
      obtain ⟨_, _, _, _, _, _, _, _, _, _, _, hC12, _, hC14, hC15, _⟩ :=
        mine_ok_facts (inv_runTrace (initState_inv rt mi) tr) hmine
      exact ⟨hC15, hC12, hC14⟩
    | error e =>
      unfold mineOk at hok
      rw [hmine] at hok
      simp at hok
  · intro hex
    exact (rank_grants hex).1

/-- C7 amended witness. -/
theorem selfgrant_stored_handles_witness :
    (applyOp (initState 0 10) (Op.mineOp 1 5 0)).totalMinedAmount
      ∈ (applyOp (initState 0 10) (Op.mineOp 1 5 0)).fhe.selfGranted :=
  ((selfgrant_stored_handles 0 10 [] 1 5 0).1 (by decide)).2.2

/-- C8: the homomorphic add used by `mine` wraps modulo 2^32 on both the
player total and the global aggregate. -/
theorem mine_adds_wrap_mod32 (rt : Addr) (mi : Nat) (tr : List Op)
    (sender amount now : Nat)
    (hok : mineOk (runTrace (initState rt mi) tr) sender amount now = true)
    (ha : amount < 2 ^ 32) :
    clearTotal (applyOp (runTrace (initState rt mi) tr) (Op.mineOp sender amount now)) sender
      = (clearTotal (runTrace (initState rt mi) tr) sender + amount) % 2 ^ 32 ∧
    clearAggregate (applyOp (runTrace (initState rt mi) tr) (Op.mineOp sender amount now))
      = (clearAggregate (runTrace (initState rt mi) tr) + amount) % 2 ^ 32 := by
  cases hmine : mine (runTrace (initState rt mi) tr) sender amount now with
  | ok s' =>
    simp only [applyOp, hmine]
    obtain ⟨_, _, _, _, _, _, _, _, _, hC10, hC11, _⟩ :=
      mine_ok_facts (inv_runTrace (initState_inv rt mi) tr) hmine
    rw [Nat.mod_eq_of_lt ha] at hC10 hC11
    exact ⟨hC11, hC10⟩
  | error e =>
    unfold mineOk at hok
    rw [hmine] at hok
    simp at hok

/-- C8 witness: a player at 2^32 - 5 contributing 9 wraps to 4. -/
theorem mine_adds_wrap_mod32_witness :
    clearTotal (applyOp (runTrace (initState 0 10) [Op.mineOp 1 4294967291 0])
      (Op.mineOp 1 9 100)) 1 = 4 ∧
    clearAggregate (applyOp (runTrace (initState 0 10) [Op.mineOp 1 4294967291 0])
      (Op.mineOp 1 9 100)) = 4 :=
  mine_adds_wrap_mod32 0 10 [Op.mineOp 1 4294967291 0] 1 9 100 (by decide) (by decide)

/-- C9: `calculateMyRank` never changes the PlayerRecords, the PlayerRegistry,
the GlobalAggregate handle or the configuration; it only extends the FHE store
and the AccessGrant relation (append-only). -/
theorem rank_changes_only_grants (s : ContractState) (sender : Addr) :
    (rankState s sender).players = s.players ∧
    (rankState s sender).playerAddresses = s.playerAddresses ∧
    (rankState s sender).totalMinedAmount = s.totalMinedAmount ∧
    (rankState s sender).minMineInterval = s.minMineInterval ∧
    (rankState s sender).rewardToken = s.rewardToken ∧
    (∃ e, (rankState s sender).fhe.vals = s.fhe.vals ++ e) ∧
    (∃ e, (rankState s sender).fhe.selfGranted = s.fhe.selfGranted ++ e) ∧
    (∃ e, (rankState s sender).fhe.userGranted = s.fhe.userGranted ++ e) :=
  rank_frame s sender

/-- C10: `getPlayerAddress` returns the i-th distinct successful contributor in
first-contribution order when `i < playerCount`, and an index-out-of-bounds
error otherwise. -/
theorem getPlayerAddress_first_contribution_order (rt : Addr) (mi : Nat) (tr : List Op)
    (i : Nat) :
    getPlayerAddress (runTrace (initState rt mi) tr) i
      = match (firstOccur (succSenders (initState rt mi) tr))[i]? with
        | some a => Except.ok a
        | none => Except.error MCError.indexOutOfBounds := by
  rw [getPlayerAddress_eq, addrs_eq_firstOccur]
